import Mathlib

/-!
Verification of the news-aggregation application (frontend in
`src/frontend`, backend pipeline components modelled from the design
document where the Python sources are not part of the tree).

JavaScript strings are embedded as `List Char` so that every operation
is executable and decidable; `Option` encodes absent / empty-falsy
values where the JavaScript tests truthiness.
-/

namespace News

/-- JavaScript strings, embedded as lists of characters. -/
abbrev Str := List Char

/-- `s.toLowerCase()` on the character-list embedding. -/
def lowerStr (s : Str) : Str := s.map Char.toLower

/-- `s.trim()` : strip leading and trailing whitespace. -/
def trimStr (s : Str) : Str :=
  ((s.dropWhile Char.isWhitespace).reverse.dropWhile Char.isWhitespace).reverse

/-- `hay.includes(needle)` : substring containment on char lists. -/
def containsSub (hay needle : Str) : Bool :=
  hay.tails.any (fun t => needle.isPrefixOf t)

/-- The article record exchanged between backend and frontend
(`id`, `title`, `summary`, `source`, `publishedAt`, `url`, `imageUrl`);
`publishedAt` is a UTC timestamp in seconds. -/
structure Article where
  id : Str
  title : Str
  summary : Str
  source : Str
  publishedAt : Nat
  url : Str
  imageUrl : Option Str
deriving DecidableEq, Repr

/-! ## C1 — DateFilter custom-range validation
`src/frontend/src/components/DateFilter.jsx`, `handleApplyCustom`.
A date string entered in an `input type=date` is embedded as its parsed
timestamp (`new Date(s).getTime()`), a `Nat`; `none` stands for the
empty string (falsy in the JavaScript guards). -/

/-- The externally observable outcome of one click on Apply. -/
inductive ApplyAction where
  | alertInvalidRange
  | filterChange (fromDate toDate : Option Nat)
  | noChange
deriving DecidableEq, Repr

/-- `handleApplyCustom` from `DateFilter.jsx` (lines 60-72):
if both dates are set and `new Date(fromDate) > new Date(toDate)` the
handler alerts and returns; otherwise it calls `onFilterChange` with
whichever dates are set, and with neither set it does nothing. -/
def handleApplyCustom (fromDate toDate : Option Nat) : ApplyAction :=
  match fromDate, toDate with
  | some f, some t =>
      if t < f then ApplyAction.alertInvalidRange
      else ApplyAction.filterChange (some f) (some t)
  | some f, none => ApplyAction.filterChange (some f) none
  | none, some t => ApplyAction.filterChange none (some t)
  | none, none => ApplyAction.noChange

/-- `onFilterChange` is the only action that reaches
`handleDateFilterChange` / `fetchNews` in `App.jsx`; dispatching any
other action leaves the displayed article list untouched. -/
def dispatchApply (articles : List Article)
    (fetch : Option Nat → Option Nat → List Article)
    (fromDate toDate : Option Nat) : List Article :=
  match handleApplyCustom fromDate toDate with
  | ApplyAction.filterChange f t => fetch f t
  | _ => articles

/-! ## C2 — force_refresh parameter
`src/frontend/src/services/api.js`, `getNews` / `refreshNews`.
Each JavaScript step `url += "&k=" + v` appends one query parameter, so
the built query string is embedded as its ordered key-value list.
`encodeURIComponent` is kept abstract (`encode`): it never changes which
keys are present. -/

/-- Query parameters produced by `getNews(limit, fromDate, toDate, page,
topic)` (`api.js` lines 13-26). -/
def getNewsParams (encode : String → String) (limit : Nat)
    (fromDate toDate : Option String) (page : Nat)
    (topic : Option String) : List (String × String) :=
  [("limit", toString limit), ("page", toString page)]
    ++ (match fromDate with
        | some f => [("from_date", f)]
        | none => [])
    ++ (match toDate with
        | some t => [("to_date", t)]
        | none => [])
    ++ (match topic with
        | some t => [("topic", encode t)]
        | none => [])

/-- Query parameters produced by `refreshNews(limit, fromDate, toDate,
page, topic)` (`api.js` lines 28-42): identical except the literal
`&force_refresh=true` appended right after `limit`. -/
def refreshNewsParams (encode : String → String) (limit : Nat)
    (fromDate toDate : Option String) (page : Nat)
    (topic : Option String) : List (String × String) :=
  [("limit", toString limit), ("force_refresh", "true"),
   ("page", toString page)]
    ++ (match fromDate with
        | some f => [("from_date", f)]
        | none => [])
    ++ (match toDate with
        | some t => [("to_date", t)]
        | none => [])
    ++ (match topic with
        | some t => [("topic", encode t)]
        | none => [])

/-! ## C8 — client-side search filter
`src/frontend/src/App.jsx`, `filteredArticles` (lines 39-53). -/

/-- The per-article predicate of the `filter` callback: title, summary
or source, lowercased, contains the lowercased term. -/
def articleMatches (term : Str) (a : Article) : Bool :=
  containsSub (lowerStr a.title) term
    || containsSub (lowerStr a.summary) term
    || containsSub (lowerStr a.source) term

/-- `filteredArticles` from `App.jsx`: when `searchTerm.trim()` is
truthy, filter on the lowercased (untrimmed) term; otherwise return the
article list unchanged. -/
def filteredArticles (articles : List Article) (searchTerm : Str) :
    List Article :=
  if trimStr searchTerm ≠ [] then
    articles.filter (articleMatches (lowerStr searchTerm))
  else articles

/-! ## Theorems -/

/-- Claim C1: whenever both custom dates are present and from > to, one
Apply click raises the invalid-range alert, is not a `filterChange`
(so `onFilterChange`, hence the fetch, is never invoked), and the
displayed article list is left exactly as it was. -/
theorem applyCustom_invalid_range_rejected
    (f t : Nat) (h : t < f)
    (articles : List Article)
    (fetch : Option Nat → Option Nat → List Article) :
    handleApplyCustom (some f) (some t) = ApplyAction.alertInvalidRange
      ∧ (∀ f' t', handleApplyCustom (some f) (some t)
            ≠ ApplyAction.filterChange f' t')
      ∧ dispatchApply articles fetch (some f) (some t) = articles := by
  refine ⟨?_, ?_, ?_⟩
  · simp [handleApplyCustom, h]
  · intro f' t'
    simp [handleApplyCustom, h]
  · simp [dispatchApply, handleApplyCustom, h]

/-- Witness for C1: the concrete range from = day 5, to = day 3 is
rejected and leaves a one-article list unchanged. -/
theorem applyCustom_invalid_range_rejected_witness :
    handleApplyCustom (some 5) (some 3) = ApplyAction.alertInvalidRange
      ∧ (∀ f' t', handleApplyCustom (some 5) (some 3)
            ≠ ApplyAction.filterChange f' t')
      ∧ dispatchApply [⟨[], [], [], [], 0, [], none⟩]
          (fun _ _ => []) (some 5) (some 3)
          = [⟨[], [], [], [], 0, [], none⟩] :=
  applyCustom_invalid_range_rejected 5 3 (by decide)
    [⟨[], [], [], [], 0, [], none⟩] (fun _ _ => [])

/-- Claim C2: for every combination of arguments, `refreshNews` sends
the parameter `force_refresh=true` while `getNews` sends no
`force_refresh` parameter at all (under any value and any URI
encoding), so only the forced request can bypass the cache read. -/
theorem refreshNews_forces_getNews_never
    (encode : String → String) (limit page : Nat)
    (fromDate toDate topic : Option String) :
    ("force_refresh", "true")
        ∈ refreshNewsParams encode limit fromDate toDate page topic
      ∧ ∀ v : String,
          ("force_refresh", v)
            ∉ getNewsParams encode limit fromDate toDate page topic := by
  constructor
  · simp [refreshNewsParams]
  · intro v h
    cases fromDate <;> cases toDate <;> cases topic <;>
      simp_all [getNewsParams]

/-- Claim C8: the search filter returns a sublist of its input (nothing
added, duplicated or reordered); a blank term returns the input
unchanged; a non-blank term keeps exactly the articles whose title,
summary or source contains the lowercased term. -/
theorem filteredArticles_spec (articles : List Article)
    (searchTerm : Str) :
    (filteredArticles articles searchTerm).Sublist articles
      ∧ (trimStr searchTerm = []
          → filteredArticles articles searchTerm = articles)
      ∧ (trimStr searchTerm ≠ []
          → ∀ a, a ∈ filteredArticles articles searchTerm
              ↔ a ∈ articles
                  ∧ articleMatches (lowerStr searchTerm) a = true) := by
  refine ⟨?_, ?_, ?_⟩
  · by_cases h : trimStr searchTerm = []
    · simp [filteredArticles, h]
    · simp only [filteredArticles, if_pos h]
      exact List.filter_sublist articles
  · intro h
    simp [filteredArticles, h]
  · intro h a
    simp [filteredArticles, h, List.mem_filter]

/-- Witness for C8: on a concrete two-article list, the term "ai" keeps
exactly the article whose title contains it. -/
theorem filteredArticles_spec_witness :
    (⟨['1'], ['A', 'I', ' ', 'n', 'e', 'w', 's'], [], [], 0, [],
        none⟩ : Article)
      ∈ filteredArticles
          [⟨['1'], ['A', 'I', ' ', 'n', 'e', 'w', 's'], [], [], 0, [],
              none⟩,
            ⟨['2'], ['r', 'u', 's', 't'], [], [], 0, [], none⟩]
          ['a', 'i']
      ↔ (⟨['1'], ['A', 'I', ' ', 'n', 'e', 'w', 's'], [], [], 0, [],
            none⟩ : Article)
          ∈ [⟨['1'], ['A', 'I', ' ', 'n', 'e', 'w', 's'], [], [], 0, [],
                none⟩,
              ⟨['2'], ['r', 'u', 's', 't'], [], [], 0, [], none⟩]
          ∧ articleMatches (lowerStr ['a', 'i'])
              ⟨['1'], ['A', 'I', ' ', 'n', 'e', 'w', 's'], [], [], 0, [],
                none⟩ = true :=
  (filteredArticles_spec _ _).2.2 (by decide) _

/-! ## C9 — search highlighting
`src/frontend/src/components/NewsCard.jsx` (second document), component
`HighlightText`.  The JavaScript splits `text` with
`new RegExp("(" + escaped(searchTerm) + ")", "gi")`: an escaped pattern
matches the literal search term case-insensitively, and because the
pattern is one capture group, `String.split` keeps every matched
separator in the result, alternating unmatched and matched pieces.
`findCI` locates the leftmost case-insensitive occurrence and
`splitParts` iterates it, which is exactly that split. -/

/-- Case-insensitive equality of two char lists. -/
def lowerEqStr (a b : Str) : Bool := lowerStr a == lowerStr b

/-- Leftmost case-insensitive occurrence of `needle`: returns
`(before, matched, after)` with the original casing of `matched`. -/
def findCI (needle : Str) : Str → Option (Str × Str × Str)
  | [] => none
  | c :: rest =>
      if ((c :: rest).take needle.length).length == needle.length
          && lowerEqStr ((c :: rest).take needle.length) needle then
        some ([], (c :: rest).take needle.length,
          (c :: rest).drop needle.length)
      else
        match findCI needle rest with
        | some (p, m2, s) => some (c :: p, m2, s)
        | none => none

/-- Iterated split on every case-insensitive occurrence, keeping the
captured matches between the unmatched pieces.  Fuel makes the
recursion structural; `hay.length + 1` is always enough. -/
def splitPartsGo (needle : Str) : Nat → Str → List Str
  | 0, hay => [hay]
  | fuel + 1, hay =>
      match findCI needle hay with
      | none => [hay]
      | some (p, m, s) => p :: m :: splitPartsGo needle fuel s

/-- `text.split(regex)` with the captured, escaped, case-insensitive
pattern built from `needle`. -/
def splitParts (needle hay : Str) : List Str :=
  if needle.isEmpty then [hay]
  else splitPartsGo needle (hay.length + 1) hay

/-- One fragment rendered by `HighlightText`: marked (inside `mark`) or
plain. -/
structure Fragment where
  marked : Bool
  text : Str
deriving DecidableEq, Repr

/-- `HighlightText` from `NewsCard.jsx`: with a falsy `searchTerm` or
`text` it renders the text unchanged; otherwise it splits the text on
the escaped case-insensitive pattern and marks exactly the parts that
lowercase-equal the search term. -/
def highlightText (text searchTerm : Str) : List Fragment :=
  if searchTerm.isEmpty || text.isEmpty then [⟨false, text⟩]
  else
    (splitParts searchTerm text).map fun part =>
      if lowerEqStr part searchTerm then ⟨true, part⟩ else ⟨false, part⟩

/-- Soundness of `findCI`: a hit decomposes the haystack and the match
has the needle's length. -/
theorem findCI_eq_some (needle : Str) :
    ∀ hay p m s, findCI needle hay = some (p, m, s) →
      hay = p ++ m ++ s ∧ m.length = needle.length := by
  intro hay
  induction hay with
  | nil => intro p m s h; simp [findCI] at h
  | cons c rest ih =>
      intro p m s h
      rw [findCI] at h
      split at h
      · rename_i hc
        simp only [Bool.and_eq_true, beq_iff_eq] at hc
        simp only [Option.some.injEq, Prod.mk.injEq] at h
        obtain ⟨hp, hm, hs⟩ := h
        subst hp hm hs
        exact ⟨by simp [List.take_append_drop], hc.1⟩
      · split at h
        · rename_i p' m' s' heq
          simp only [Option.some.injEq, Prod.mk.injEq] at h
          obtain ⟨hp, hm, hs⟩ := h
          subst hp hm hs
          obtain ⟨hdec, hlen⟩ := ih p' m' s' heq
          exact ⟨by rw [hdec]; simp, hlen⟩
        · exact absurd h (by simp)

/-- Splitting and re-concatenating is the identity: the parts produced
by `splitPartsGo` flatten back to the haystack, for any fuel. -/
theorem splitPartsGo_flatten (needle : Str) :
    ∀ fuel hay, (splitPartsGo needle fuel hay).flatten = hay := by
  intro fuel
  induction fuel with
  | zero => intro hay; simp [splitPartsGo]
  | succ n ih =>
      intro hay
      rw [splitPartsGo]
      split
      · simp
      · rename_i p m s heq
        obtain ⟨hdec, _⟩ := findCI_eq_some needle hay p m s heq
        simp only [List.flatten_cons, ih s]
        rw [hdec]
        simp

/-- Claim C9: highlighting never alters the displayed text — the
fragments `HighlightText` renders concatenate back to the original
text character for character, and an empty search term or empty text
renders the text as one unmarked fragment. -/
theorem highlightText_preserves_text (text searchTerm : Str) :
    ((highlightText text searchTerm).map Fragment.text).flatten = text
      ∧ (searchTerm = [] ∨ text = []
          → highlightText text searchTerm = [⟨false, text⟩]) := by
  constructor
  · by_cases hg : (searchTerm.isEmpty || text.isEmpty) = true
    · simp [highlightText, hg]
    · rw [highlightText, if_neg hg, List.map_map]
      have hid : (Fragment.text ∘ fun part =>
          if lowerEqStr part searchTerm then (⟨true, part⟩ : Fragment)
          else ⟨false, part⟩) = id := by
        funext part
        by_cases h : lowerEqStr part searchTerm = true <;> simp [h]
      rw [hid, List.map_id, splitParts]
      have hne : ¬ searchTerm.isEmpty = true := by
        intro h
        exact hg (by simp [h])
      rw [if_neg hne]
      exact splitPartsGo_flatten searchTerm _ text
  · intro h
    rcases h with h | h <;> simp [highlightText, h]

/-- Witness for C9: concrete text "Aba" with term "a" flattens back
unchanged, and an empty term renders "x" as one plain fragment. -/
theorem highlightText_preserves_text_witness :
    ((highlightText ['A', 'b', 'a'] ['a']).map Fragment.text).flatten
        = ['A', 'b', 'a']
      ∧ highlightText ['x'] [] = [⟨false, ['x']⟩] :=
  ⟨(highlightText_preserves_text ['A', 'b', 'a'] ['a']).1,
    (highlightText_preserves_text ['x'] []).2 (Or.inl rfl)⟩

/-! ## C10 — one full-summary fetch per card
`src/unnamed/part_001` (NewsCard with full-summary support),
`handleFullSummary` (lines 52-72).  The component state and the handler
are embedded as an explicit state machine; the `Bool` returned by
`handleFullSummary` records whether a `getFullSummary` request was
issued on that click, and the fetch outcome is an input so both the
resolved and the rejected promise are covered. -/

/-- Payload of a `/api/summarize/full` response. -/
structure FullSummaryData where
  summary : Str
  word_count : Nat
deriving DecidableEq, Repr

/-- The four `useState` cells of the NewsCard component. -/
structure CardState where
  showFullSummary : Bool
  fullSummary : Option FullSummaryData
  loadingFullSummary : Bool
  fullSummaryError : Option Str
deriving DecidableEq, Repr

/-- How the awaited `getFullSummary` call settles. -/
inductive FetchOutcome where
  | success (data : FullSummaryData)
  | failure (msg : Str)
deriving DecidableEq, Repr

/-- `handleFullSummary` from the NewsCard: open the modal and clear the
error; if a summary is already held, return early (no request);
otherwise issue the request and store the summary or the error.  The
second component is `true` iff the request was issued. -/
def handleFullSummary (s : CardState) (outcome : FetchOutcome) :
    CardState × Bool :=
  let s1 : CardState :=
    { s with showFullSummary := true, fullSummaryError := none }
  match s1.fullSummary with
  | some _ => (s1, false)
  | none =>
      match outcome with
      | FetchOutcome.success d =>
          ({ s1 with fullSummary := some d, loadingFullSummary := false },
            true)
      | FetchOutcome.failure m =>
          ({ s1 with fullSummaryError := some m, loadingFullSummary := false },
            true)

/-- 1 iff this click issued a request and the request succeeded. -/
def successFetch (s : CardState) (o : FetchOutcome) : Nat :=
  if (handleFullSummary s o).2 then
    match o with
    | FetchOutcome.success _ => 1
    | FetchOutcome.failure _ => 0
  else 0

/-- A sequence of clicks on the Full Summary button: final state plus
the number of clicks that issued a request which succeeded. -/
def runClicks (s : CardState) : List FetchOutcome → CardState × Nat
  | [] => (s, 0)
  | o :: rest =>
      ((runClicks (handleFullSummary s o).1 rest).1,
        successFetch s o + (runClicks (handleFullSummary s o).1 rest).2)

/-- When a summary is already held the early return fires: the click
issues no request and keeps the whole state except for opening the
modal and clearing the error. -/
theorem handleFullSummary_held (s : CardState) (o : FetchOutcome)
    (d : FullSummaryData) (hs : s.fullSummary = some d) :
    handleFullSummary s o =
      ({ s with showFullSummary := true, fullSummaryError := none },
        false) := by
  rw [handleFullSummary.eq_def]
  simp [hs]

/-- Once a summary is held it is never lost and no click issues a
request any more. -/
theorem runClicks_some_zero (d : FullSummaryData) :
    ∀ outcomes (s : CardState), s.fullSummary = some d →
      (runClicks s outcomes).2 = 0 := by
  intro outcomes
  induction outcomes with
  | nil => intro s _; simp [runClicks]
  | cons o rest ih =>
      intro s hs
      rw [runClicks, successFetch.eq_def, handleFullSummary_held s o d hs]
      simp only [Bool.false_eq_true, if_false, Nat.zero_add]
      exact ih _ (by simp [hs])

/-- Claim C10: a card that already holds a full-summary response
returns early on every further click — the state keeps the summary and
no request is issued — and over any sequence of clicks starting from
the initial state (no summary yet) at most one successful
`getFullSummary` fetch ever happens. -/
theorem fullSummary_fetched_at_most_once (s : CardState)
    (d : FullSummaryData) (o : FetchOutcome)
    (outcomes : List FetchOutcome) :
    (s.fullSummary = some d →
        (handleFullSummary s o).2 = false
          ∧ (handleFullSummary s o).1.fullSummary = some d)
      ∧ (s.fullSummary = none →
          (runClicks s outcomes).2 ≤ 1) := by
  constructor
  · intro hs
    rw [handleFullSummary_held s o d hs]
    simpa using hs
  · intro hs
    induction outcomes generalizing s with
    | nil => simp [runClicks]
    | cons o' rest ih =>
        rw [runClicks]
        cases o' with
        | success d' =>
            have h1 : (handleFullSummary s
                (FetchOutcome.success d')).1.fullSummary = some d' := by
              rw [handleFullSummary.eq_def]
              simp [hs]
            have h2 := runClicks_some_zero d' rest _ h1
            have h3 : successFetch s (FetchOutcome.success d') ≤ 1 := by
              rw [successFetch.eq_def]
              split <;> simp
            omega
        | failure m =>
            have h1 : (handleFullSummary s
                (FetchOutcome.failure m)).1.fullSummary = none := by
              rw [handleFullSummary.eq_def]
              simp [hs]
            have h2 := ih _ h1
            have h3 : successFetch s (FetchOutcome.failure m) = 0 := by
              rw [successFetch.eq_def]
              split <;> simp
            omega

/-- Witness for C10: from a card already holding a summary, a click
issues no request; from a fresh card, three clicks whose fetches all
succeed still perform at most one successful fetch. -/
theorem fullSummary_fetched_at_most_once_witness :
    (handleFullSummary ⟨true, some ⟨['s'], 3⟩, false, none⟩
          (FetchOutcome.success ⟨['t'], 4⟩)).2 = false
      ∧ (handleFullSummary ⟨true, some ⟨['s'], 3⟩, false, none⟩
            (FetchOutcome.success ⟨['t'], 4⟩)).1.fullSummary
          = some ⟨['s'], 3⟩
      ∧ (runClicks ⟨false, none, false, none⟩
            [FetchOutcome.success ⟨['a'], 1⟩,
              FetchOutcome.success ⟨['b'], 2⟩,
              FetchOutcome.success ⟨['c'], 3⟩]).2 ≤ 1 :=
  ⟨((fullSummary_fetched_at_most_once
        ⟨true, some ⟨['s'], 3⟩, false, none⟩ ⟨['s'], 3⟩
        (FetchOutcome.success ⟨['t'], 4⟩) []).1 rfl).1,
    ((fullSummary_fetched_at_most_once
        ⟨true, some ⟨['s'], 3⟩, false, none⟩ ⟨['s'], 3⟩
        (FetchOutcome.success ⟨['t'], 4⟩) []).1 rfl).2,
    (fullSummary_fetched_at_most_once ⟨false, none, false, none⟩
        ⟨['s'], 3⟩ (FetchOutcome.success ⟨['t'], 4⟩)
        [FetchOutcome.success ⟨['a'], 1⟩,
          FetchOutcome.success ⟨['b'], 2⟩,
          FetchOutcome.success ⟨['c'], 3⟩]).2 rfl⟩

/-! ## C3 — Paginator (backend, modelled from the spec)
The backend Python sources (`app/...` of the FastAPI service) are not
part of the tree; only the design document (§4.7) and the README
describe the Paginator.  The definitions below are modelled from the
spec. -/

/-- Modelled from the spec: the backend Paginator's slice — "given an
ordered article list, a 1-based `page`, and `limit`, return the slice
`[(page-1)*limit, page*limit)` clipped to bounds" (§4.7).  The backend
source file is missing from the tree. -/
def paginate (articles : List Article) (page limit : Nat) :
    List Article :=
  (articles.drop ((page - 1) * limit)).take limit

/-- Modelled from the spec: `total_pages = ceil(len / limit)` with a
minimum of 1 even for an empty list (§4.7).  The backend source file is
missing from the tree. -/
def total_pages (len limit : Nat) : Nat :=
  max 1 ((len + limit - 1) / limit)

/-- The page slices of `l` for pages `1..n` cover exactly the first
`n * P` elements, so their lengths sum to `min (n * P) l.length`. -/
theorem sum_page_lengths (l : List Article) (P : Nat) :
    ∀ n, ((List.range n).map
        (fun i => (paginate l (i + 1) P).length)).sum
      = min (n * P) l.length := by
  intro n
  induction n with
  | zero => simp
  | succ m ih =>
      rw [List.range_succ, List.map_append, List.sum_append]
      simp only [List.map_cons, List.map_nil, List.sum_cons,
        List.sum_nil]
      rw [ih]
      have h1 : (paginate l (m + 1) P).length
          = min P (l.length - m * P) := by
        simp [paginate, List.length_take, List.length_drop]
      rw [h1, Nat.succ_mul]
      omega

/-- The number of pages is at least large enough: the list length never
exceeds `total_pages * limit`. -/
theorem length_le_total_pages_mul (L P : Nat) (hP : 1 ≤ P) :
    L ≤ total_pages L P * P := by
  rw [total_pages]
  have hd := Nat.div_add_mod (L + P - 1) P
  have hm : (L + P - 1) % P < P := Nat.mod_lt _ (by omega)
  by_cases hq : (L + P - 1) / P = 0
  · have hlt : L + P - 1 < P := (Nat.div_eq_zero_iff (by omega)).1 hq
    have hL : L = 0 := by omega
    rw [hq, hL]
    exact Nat.zero_le _
  · rw [Nat.max_eq_right (Nat.pos_of_ne_zero hq), Nat.mul_comm]
    generalize P * ((L + P - 1) / P) = pq at hd ⊢
    omega

/-- Claim C3: the paginator returns the clipped slice
`[(page-1)*limit, page*limit)`; `total_pages` is the least page count
that is at least 1 and covers the whole list (hence exactly
`max 1 (ceil (L / P))`, and 1 for an empty list); the `total_pages`
slices' lengths sum to the list length; and a page beyond `total_pages`
yields the empty slice rather than an error. -/
theorem paginator_spec (l : List Article) (P page : Nat)
    (hP : 1 ≤ P) (hpage : 1 ≤ page) :
    paginate l page P = (l.take (page * P)).drop ((page - 1) * P)
      ∧ total_pages 0 P = 1
      ∧ l.length ≤ total_pages l.length P * P
      ∧ (∀ m, 1 ≤ m → l.length ≤ m * P → total_pages l.length P ≤ m)
      ∧ ((List.range (total_pages l.length P)).map
            (fun i => (paginate l (i + 1) P).length)).sum = l.length
      ∧ (total_pages l.length P < page → paginate l page P = []) := by
  refine ⟨?_, ?_, length_le_total_pages_mul l.length P hP, ?_, ?_, ?_⟩
  · have hpp : page * P - (page - 1) * P = P := by
      have h : page = (page - 1) + 1 := by omega
      calc page * P - (page - 1) * P
          = ((page - 1) + 1) * P - (page - 1) * P := by rw [← h]
        _ = P := by rw [Nat.succ_mul]; omega
    rw [paginate, List.drop_take, hpp]
  · rw [total_pages]
    have h0 : (0 + P - 1) / P = 0 := Nat.div_eq_of_lt (by omega)
    rw [h0]
    omega
  · intro m hm hLm
    rw [total_pages]
    have hlt : l.length + P - 1 < (m + 1) * P := by
      rw [Nat.succ_mul]
      omega
    have hq : (l.length + P - 1) / P < m + 1 :=
      (Nat.div_lt_iff_lt_mul (by omega : 0 < P)).2 hlt
    omega
  · rw [sum_page_lengths l P]
    have := length_le_total_pages_mul l.length P hP
    omega
  · intro hbeyond
    rw [paginate]
    have h1 : l.length ≤ (page - 1) * P := by
      have h2 := length_le_total_pages_mul l.length P hP
      have h3 : total_pages l.length P * P ≤ (page - 1) * P :=
        Nat.mul_le_mul_right P (by omega)
      omega
    rw [List.drop_eq_nil_of_le h1, List.take_nil]

/-- Witness for C3: a five-element list with limit 2 has 3 pages, and
page 4 is the empty slice. -/
theorem paginator_spec_witness :
    paginate [⟨['1'], [], [], [], 0, [], none⟩,
        ⟨['2'], [], [], [], 0, [], none⟩,
        ⟨['3'], [], [], [], 0, [], none⟩,
        ⟨['4'], [], [], [], 0, [], none⟩,
        ⟨['5'], [], [], [], 0, [], none⟩] 4 2 = [] :=
  (paginator_spec [⟨['1'], [], [], [], 0, [], none⟩,
        ⟨['2'], [], [], [], 0, [], none⟩,
        ⟨['3'], [], [], [], 0, [], none⟩,
        ⟨['4'], [], [], [], 0, [], none⟩,
        ⟨['5'], [], [], [], 0, [], none⟩] 2 4
      (by decide) (by decide)).2.2.2.2.2 (by decide)

/-! ## C7 — CacheStore expiry (backend, modelled from the spec)
`app/core/cache.py` is not part of the tree; modelled from §4.5 and
§3 (CacheEntry): an entry is logically expired once
`now - createdAt > ttlSeconds`, whether or not it has been physically
evicted. -/

/-- Modelled from the spec: a stored cache entry with its creation
time (§3, CacheEntry).  The backend source file is missing from the
tree. -/
structure CacheEntry (V : Type) where
  value : V
  createdAt : Nat
deriving DecidableEq, Repr

/-- Modelled from the spec: `get(key)` returns the cached value and its
age in seconds if present and unexpired, else a miss (§4.5); expiry is
`now - createdAt > ttlSeconds` (§3).  Entries may or may not have been
physically evicted from the association list.  The backend source file
is missing from the tree. -/
def cacheGet {V : Type} (entries : List (Str × CacheEntry V))
    (key : Str) (now ttl : Nat) : Option (V × Nat) :=
  match entries.find? (fun e => e.1 == key) with
  | some e =>
      if ttl < now - e.2.createdAt then none
      else some (e.2.value, now - e.2.createdAt)
  | none => none

/-- Modelled from the spec: `put(key, value)` stores with
`createdAt = now`, overwriting any previous entry (§4.5).  The backend
source file is missing from the tree. -/
def cachePut {V : Type} (entries : List (Str × CacheEntry V))
    (key : Str) (value : V) (now : Nat) :
    List (Str × CacheEntry V) :=
  (key, ⟨value, now⟩) :: entries.filter (fun e => !(e.1 == key))

/-- Claim C7: the cache never serves an expired entry as fresh — if the
key is physically gone the get is a miss, if the entry is still stored
but `now - createdAt > ttl` the get is also a miss, and any served
value has age at most `ttl`. -/
theorem cache_never_serves_expired {V : Type}
    (entries : List (Str × CacheEntry V)) (key : Str) (now ttl : Nat) :
    (entries.find? (fun e => e.1 == key) = none
        → cacheGet entries key now ttl = none)
      ∧ (∀ e, entries.find? (fun e => e.1 == key) = some e
          → ttl < now - e.2.createdAt
          → cacheGet entries key now ttl = none)
      ∧ (∀ v age, cacheGet entries key now ttl = some (v, age)
          → age ≤ ttl) := by
  refine ⟨?_, ?_, ?_⟩
  · intro h
    simp only [cacheGet, h]
  · intro e he hexp
    simp only [cacheGet, he]
    rw [if_pos hexp]
  · intro v age h
    simp only [cacheGet] at h
    cases hf : entries.find? (fun e => e.1 == key) with
    | none => simp [hf] at h
    | some e =>
        simp only [hf] at h
        rcases Nat.lt_or_ge ttl (now - e.2.createdAt) with hexp | hexp
        · rw [if_pos hexp] at h
          exact absurd h (by simp)
        · rw [if_neg (Nat.not_lt.mpr hexp)] at h
          simp only [Option.some.injEq, Prod.mk.injEq] at h
          omega

/-- Witness for C7: a concrete entry created at time 0 with ttl 900 is
a miss at time 1000. -/
theorem cache_never_serves_expired_witness :
    cacheGet [(['k'], (⟨7, 0⟩ : CacheEntry Nat))] ['k'] 1000 900
      = none :=
  (cache_never_serves_expired [(['k'], (⟨7, 0⟩ : CacheEntry Nat))]
      ['k'] 1000 900).2.1 ⟨['k'], ⟨7, 0⟩⟩ (by decide) (by decide)

/-! ## C4 — RateLimiter (backend, modelled from the spec)
`app/core/rate_limit.py` is not part of the tree; modelled from §4.6:
per scope, an ordered sequence of accepted timestamps; on each call,
timestamps no longer inside the trailing window are dropped from the
front, then the call is accepted (push `now`, return true) iff the
remaining count is below the quota, else rejected without modifying
the sequence.  A timestamp `t` is inside the window at instant `now`
iff `now < t + window`, so a call made once the window has fully
elapsed (`now ≥ t + window` for every held `t`) sees an empty window.
Scopes are independent, so one scope's sequence is modelled. -/

/-- Modelled from the spec: one admission check `allow(scopeKey)`
(§4.6) — prune, then accept iff below quota.  The backend source file
is missing from the tree. -/
def rlAllow (quota window now : Nat) (times : List Nat) :
    Bool × List Nat :=
  if (times.filter (fun t => now < t + window)).length < quota then
    (true, times.filter (fun t => now < t + window) ++ [now])
  else
    (false, times.filter (fun t => now < t + window))

/-- The scope's timestamp sequence after a whole sequence of calls,
starting from the empty (fresh-scope) sequence. -/
def rlRun (quota window : Nat) (calls : List Nat) : List Nat :=
  calls.foldl (fun s now => (rlAllow quota window now s).2) []

/-- One admission check never grows the sequence beyond the quota. -/
theorem rlAllow_length_le (quota window now : Nat) (s : List Nat)
    (hs : s.length ≤ quota) :
    ((rlAllow quota window now s).2).length ≤ quota := by
  rw [rlAllow]
  have hf : (s.filter (fun t => now < t + window)).length ≤ s.length :=
    (List.filter_sublist s).length_le
  split
  · rename_i hlt
    simp only [List.length_append, List.length_cons, List.length_nil]
    omega
  · exact Nat.le_trans hf hs

/-- The sequence held for a scope never exceeds the quota. -/
theorem rlRun_length_le (quota window : Nat) (calls : List Nat) :
    (rlRun quota window calls).length ≤ quota ∨ quota = 0 := by
  rcases Nat.eq_zero_or_pos quota with h0 | hq
  · exact Or.inr h0
  · left
    rw [rlRun]
    have key : ∀ (cs : List Nat) (s : List Nat), s.length ≤ quota →
        (cs.foldl (fun st now => (rlAllow quota window now st).2)
          s).length ≤ quota := by
      intro cs
      induction cs with
      | nil => intro s hs; simpa using hs
      | cons c rest ih =>
          intro s hs
          rw [List.foldl_cons]
          exact ih _ (rlAllow_length_le quota window c s hs)
    exact key calls [] (by simp)

/-- Running calls that all fall inside one window, from a fresh scope,
stores exactly the first `quota` of them: each call inside the window
prunes nothing, and acceptances stop at the quota. -/
theorem rlRun_band (quota window lo : Nat) :
    ∀ calls (s : List Nat),
      (∀ t ∈ s, lo ≤ t ∧ t < lo + window) →
      (∀ c ∈ calls, lo ≤ c ∧ c < lo + window) →
      s.length ≤ quota →
      calls.foldl (fun st now => (rlAllow quota window now st).2) s
        = (s ++ calls).take quota := by
  intro calls
  induction calls with
  | nil =>
      intro s hsb _ hslen
      simp [List.take_of_length_le hslen]
  | cons c rest ih =>
      intro s hsb hcb hslen
      have hcband := hcb c (by simp)
      have hprune : s.filter (fun t => c < t + window) = s := by
        rw [List.filter_eq_self]
        intro t ht
        have := hsb t ht
        simp only [decide_eq_true_eq]
        omega
      rw [List.foldl_cons]
      by_cases hfull : s.length < quota
      · have hstep : (rlAllow quota window c s).2 = s ++ [c] := by
          rw [rlAllow, hprune, if_pos (by omega)]
        rw [hstep,
          ih (s ++ [c])
            (by
              intro t ht
              rcases List.mem_append.1 ht with h | h
              · exact hsb t h
              · simp at h
                subst h
                exact hcband)
            (fun x hx => hcb x (by simp [hx]))
            (by simp only [List.length_append, List.length_cons,
                  List.length_nil]; omega)]
        simp
      · have hslen2 : s.length = quota := by omega
        have hstep : (rlAllow quota window c s).2 = s := by
          rw [rlAllow, hprune, if_neg (by omega)]
        rw [hstep,
          ih s hsb (fun x hx => hcb x (by simp [hx])) hslen]
        rw [List.take_append_of_le_length (by omega),
          List.take_append_of_le_length (by omega)]

/-- Claim C4: with quota 10 and window 60 s, (i) at any evaluation
instant at most 10 stored timestamps lie within the trailing window;
(ii) after 10 calls inside one 60-second span from a fresh scope, an
11th call inside the same span is rejected and leaves the timestamp
sequence unmodified; (iii) a later call made once the window has fully
elapsed is accepted again. -/
theorem rateLimiter_spec (calls : List Nat) (lo c now : Nat)
    (hband : ∀ t ∈ calls, lo ≤ t ∧ t < lo + 60)
    (hc : lo ≤ c ∧ c < lo + 60)
    (hlen : calls.length = 10)
    (hnow : ∀ t ∈ calls, t + 60 ≤ now) :
    (∀ anyCalls instant,
        ((rlRun 10 60 anyCalls).filter
          (fun t => instant < t + 60)).length ≤ 10)
      ∧ (rlAllow 10 60 c (rlRun 10 60 calls)).1 = false
      ∧ (rlAllow 10 60 c (rlRun 10 60 calls)).2 = rlRun 10 60 calls
      ∧ (rlAllow 10 60 now
          (rlAllow 10 60 c (rlRun 10 60 calls)).2).1 = true := by
  have hstate : rlRun 10 60 calls = calls := by
    rw [rlRun, rlRun_band 10 60 lo calls [] (by simp) hband (by simp)]
    simp [List.take_of_length_le (by omega : calls.length ≤ 10)]
  have hprune : calls.filter (fun t => c < t + 60) = calls := by
    rw [List.filter_eq_self]
    intro t ht
    have := hband t ht
    simp only [decide_eq_true_eq]
    omega
  have hreject : (rlAllow 10 60 c calls).2 = calls := by
    rw [rlAllow, hprune, if_neg (by omega)]
  refine ⟨?_, ?_, ?_, ?_⟩
  · intro anyCalls instant
    have h1 := (List.filter_sublist (rlRun 10 60 anyCalls)
      (p := fun t => instant < t + 60)).length_le
    rcases rlRun_length_le 10 60 anyCalls with h2 | h2
    · omega
    · omega
  · rw [hstate, rlAllow, hprune, if_neg (by omega)]
  · rw [hstate, hreject]
  · rw [hstate, hreject, rlAllow]
    have hempty : calls.filter (fun t => now < t + 60) = [] := by
      rw [List.filter_eq_nil_iff]
      intro t ht
      have := hnow t ht
      simp only [decide_eq_true_eq]
      omega
    rw [hempty, if_pos (by decide)]

/-- Witness for C4: ten calls at seconds 0..9, an 11th call at second
59 is rejected, and a call at second 120 is accepted again. -/
theorem rateLimiter_spec_witness :
    (rlAllow 10 60 59
        (rlRun 10 60 [0, 1, 2, 3, 4, 5, 6, 7, 8, 9])).1 = false
      ∧ (rlAllow 10 60 120
          (rlAllow 10 60 59
            (rlRun 10 60 [0, 1, 2, 3, 4, 5, 6, 7, 8, 9])).2).1
        = true :=
  ⟨(rateLimiter_spec [0, 1, 2, 3, 4, 5, 6, 7, 8, 9] 0 59 120
      (by decide) (by decide) (by decide) (by decide)).2.1,
    (rateLimiter_spec [0, 1, 2, 3, 4, 5, 6, 7, 8, 9] 0 59 120
      (by decide) (by decide) (by decide) (by decide)).2.2.2⟩

/-! ## C5 — Deduplicator (backend, modelled from the spec)
The backend Deduplicator source is not part of the tree; modelled from
§4.2: first pass drops any article whose normalized url (lowercased,
trailing slash stripped) was already seen; second pass normalizes each
title (lowercase, strip punctuation, collapse whitespace) and drops an
article whose normalized title is near-duplicate, under the pluggable
similarity predicate, of an already-accepted one.  Output preserves
the order of first occurrence.  The similarity predicate is the §9
pluggable interface, so the theorems quantify over it. -/

/-- Modelled from the spec: url normalization — case and trailing
slash (§4.2).  The backend source file is missing from the tree. -/
def normalizeUrl (u : Str) : Str :=
  if (lowerStr u).getLast? = some '/' then (lowerStr u).dropLast
  else lowerStr u

/-- Whitespace-run collapsing, tracking whether the previous kept
character was a space. -/
def collapseSpacesGo (prevSpace : Bool) : Str → Str
  | [] => []
  | c :: rest =>
      if c.isWhitespace then
        if prevSpace then collapseSpacesGo true rest
        else ' ' :: collapseSpacesGo true rest
      else c :: collapseSpacesGo false rest

/-- Modelled from the spec: title normalization — lowercase, strip
punctuation (keep alphanumerics and whitespace), collapse whitespace
(§4.2).  The backend source file is missing from the tree. -/
def normalizeTitle (t : Str) : Str :=
  collapseSpacesGo false
    ((lowerStr t).filter (fun c => c.isAlphanum || c.isWhitespace))

/-- Modelled from the spec: first pass of the Deduplicator — drop any
article whose normalized url has already been seen (§4.2).  The
backend source file is missing from the tree. -/
def dedupeUrlGo (seen : List Str) : List Article → List Article
  | [] => []
  | a :: rest =>
      if normalizeUrl a.url ∈ seen then dedupeUrlGo seen rest
      else a :: dedupeUrlGo (normalizeUrl a.url :: seen) rest

/-- Modelled from the spec: second pass of the Deduplicator — drop an
article whose normalized title the similarity predicate `near` flags
against any already-accepted article, keeping the earlier instance
(§4.2).  The backend source file is missing from the tree. -/
def dedupeTitleGo (near : Str → Str → Bool) (accepted : List Article) :
    List Article → List Article
  | [] => []
  | a :: rest =>
      if accepted.any (fun b =>
          near (normalizeTitle b.title) (normalizeTitle a.title)) then
        dedupeTitleGo near accepted rest
      else a :: dedupeTitleGo near (accepted ++ [a]) rest

/-- Modelled from the spec: the Deduplicator — url pass then title
pass (§4.2).  The backend source file is missing from the tree. -/
def dedupe (near : Str → Str → Bool) (arts : List Article) :
    List Article :=
  dedupeTitleGo near [] (dedupeUrlGo [] arts)

/-- Every article surviving the url pass has a normalized url outside
the seen set. -/
theorem dedupeUrlGo_not_seen (seen : List Str) :
    ∀ l x, x ∈ dedupeUrlGo seen l → normalizeUrl x.url ∉ seen := by
  intro l
  induction l generalizing seen with
  | nil => intro x hx; simp [dedupeUrlGo] at hx
  | cons a rest ih =>
      intro x hx
      rw [dedupeUrlGo] at hx
      split at hx
      · exact ih seen x hx
      · rename_i hns
        rcases List.mem_cons.1 hx with h | h
        · subst h
          exact hns
        · have := ih (normalizeUrl a.url :: seen) x h
          intro hc
          exact this (List.mem_cons_of_mem _ hc)

/-- The url pass output is a sublist of its input. -/
theorem dedupeUrlGo_sublist (seen : List Str) :
    ∀ l, (dedupeUrlGo seen l).Sublist l := by
  intro l
  induction l generalizing seen with
  | nil => simp [dedupeUrlGo]
  | cons a rest ih =>
      rw [dedupeUrlGo]
      split
      · exact (ih seen).trans (List.sublist_cons_self a rest)
      · exact (ih (normalizeUrl a.url :: seen)).cons₂ a

/-- The url pass output has pairwise distinct normalized urls. -/
theorem dedupeUrlGo_pairwise (seen : List Str) :
    ∀ l, (dedupeUrlGo seen l).Pairwise
      (fun x y => normalizeUrl x.url ≠ normalizeUrl y.url) := by
  intro l
  induction l generalizing seen with
  | nil => simp [dedupeUrlGo]
  | cons a rest ih =>
      rw [dedupeUrlGo]
      split
      · exact ih seen
      · refine List.Pairwise.cons ?_ (ih _)
        intro y hy
        have := dedupeUrlGo_not_seen (normalizeUrl a.url :: seen)
          rest y hy
        intro hc
        exact this (by rw [← hc]; exact List.mem_cons_self _ _)

/-- The url pass is the identity on a list already free of seen or
repeated normalized urls. -/
theorem dedupeUrlGo_fixed (seen : List Str) :
    ∀ l, (∀ x ∈ l, normalizeUrl x.url ∉ seen) →
      l.Pairwise (fun x y => normalizeUrl x.url ≠ normalizeUrl y.url) →
      dedupeUrlGo seen l = l := by
  intro l
  induction l generalizing seen with
  | nil => intro _ _; rfl
  | cons a rest ih =>
      intro hns hpw
      rw [dedupeUrlGo]
      rw [if_neg (hns a (List.mem_cons_self a rest))]
      congr 1
      refine ih _ ?_ (List.Pairwise.of_cons hpw)
      intro x hx
      simp only [List.mem_cons]
      push_neg
      refine ⟨?_, hns x (List.mem_cons_of_mem a hx)⟩
      intro hc
      exact (List.pairwise_cons.1 hpw).1 x hx hc.symm

/-- Every article surviving the title pass is not flagged against any
already-accepted article. -/
theorem dedupeTitleGo_not_near (near : Str → Str → Bool) :
    ∀ l accepted x, x ∈ dedupeTitleGo near accepted l →
      ∀ b ∈ accepted,
        near (normalizeTitle b.title) (normalizeTitle x.title)
          = false := by
  intro l
  induction l with
  | nil => intro accepted x hx; simp [dedupeTitleGo] at hx
  | cons a rest ih =>
      intro accepted x hx
      rw [dedupeTitleGo] at hx
      split at hx
      · exact ih accepted x hx
      · rename_i hna
        rcases List.mem_cons.1 hx with h | h
        · subst h
          intro b hb
          have := (List.any_eq_false.1 (by
            exact Bool.eq_false_iff.2 hna)) b hb
          simpa using this
        · intro b hb
          exact ih (accepted ++ [a]) x h b (by simp [hb])

/-- The title pass output is a sublist of its input. -/
theorem dedupeTitleGo_sublist (near : Str → Str → Bool) :
    ∀ l accepted, (dedupeTitleGo near accepted l).Sublist l := by
  intro l
  induction l with
  | nil => intro accepted; simp [dedupeTitleGo]
  | cons a rest ih =>
      intro accepted
      rw [dedupeTitleGo]
      split
      · exact (ih accepted).trans (List.sublist_cons_self a rest)
      · exact (ih (accepted ++ [a])).cons₂ a

/-- The title pass output is pairwise non-near-duplicate. -/
theorem dedupeTitleGo_pairwise (near : Str → Str → Bool) :
    ∀ l accepted, (dedupeTitleGo near accepted l).Pairwise
      (fun x y =>
        near (normalizeTitle x.title) (normalizeTitle y.title)
          = false) := by
  intro l
  induction l with
  | nil => intro accepted; simp [dedupeTitleGo]
  | cons a rest ih =>
      intro accepted
      rw [dedupeTitleGo]
      split
      · exact ih accepted
      · refine List.Pairwise.cons ?_ (ih (accepted ++ [a]))
        intro y hy
        exact dedupeTitleGo_not_near near rest (accepted ++ [a]) y hy
          a (by simp)

/-- The title pass is the identity on a list already pairwise clean
and clean against the accepted prefix. -/
theorem dedupeTitleGo_fixed (near : Str → Str → Bool) :
    ∀ l accepted,
      (∀ x ∈ l, ∀ b ∈ accepted,
        near (normalizeTitle b.title) (normalizeTitle x.title)
          = false) →
      l.Pairwise (fun x y =>
        near (normalizeTitle x.title) (normalizeTitle y.title)
          = false) →
      dedupeTitleGo near accepted l = l := by
  intro l
  induction l with
  | nil => intro accepted _ _; rfl
  | cons a rest ih =>
      intro accepted hacc hpw
      rw [dedupeTitleGo]
      rw [if_neg (by
        simp only [List.any_eq_true, not_exists, not_and]
        intro b hb
        simp [hacc a (List.mem_cons_self a rest) b hb])]
      congr 1
      refine ih (accepted ++ [a]) ?_ (List.Pairwise.of_cons hpw)
      intro x hx b hb
      rcases List.mem_append.1 hb with h | h
      · exact hacc x (List.mem_cons_of_mem a hx) b h
      · simp only [List.mem_singleton] at h
        subst h
        exact (List.pairwise_cons.1 hpw).1 x hx

/-- Claim C5: the Deduplicator is idempotent — applying it to its own
output returns the output unchanged — and every output is free of
duplicate normalized urls and of near-duplicate titles (under the
pluggable similarity predicate), pairwise. -/
theorem dedupe_idempotent_and_clean (near : Str → Str → Bool)
    (arts : List Article) :
    dedupe near (dedupe near arts) = dedupe near arts
      ∧ (dedupe near arts).Pairwise
          (fun x y => normalizeUrl x.url ≠ normalizeUrl y.url)
      ∧ (dedupe near arts).Pairwise
          (fun x y =>
            near (normalizeTitle x.title) (normalizeTitle y.title)
              = false) := by
  have hurl : (dedupe near arts).Pairwise
      (fun x y => normalizeUrl x.url ≠ normalizeUrl y.url) :=
    (dedupeUrlGo_pairwise [] arts).sublist
      (dedupeTitleGo_sublist near (dedupeUrlGo [] arts) [])
  have htitle : (dedupe near arts).Pairwise
      (fun x y =>
        near (normalizeTitle x.title) (normalizeTitle y.title)
          = false) :=
    dedupeTitleGo_pairwise near (dedupeUrlGo [] arts) []
  refine ⟨?_, hurl, htitle⟩
  rw [dedupe, dedupeUrlGo_fixed [] (dedupe near arts) (by simp) hurl,
    dedupeTitleGo_fixed near (dedupe near arts) [] (by simp) htitle]

/-! ## C6 — Sampler (backend, modelled from the spec)
The backend Sampler source is not part of the tree; modelled from
§4.4: bucket the scored pool by day, sort each bucket by score
descending, round-robin across the buckets taking the next-highest
remaining article from each bucket in turn until `N` are selected or
all buckets are exhausted, then re-sort the selection by `publishedAt`
descending.  Sorting is a stable insertion sort (the spec names no
algorithm; only that buckets are ordered by score). -/

/-- Stable insertion of `a` in front of the first element it is
`le`-before. -/
def insertBy {α : Type} (le : α → α → Bool) (a : α) :
    List α → List α
  | [] => [a]
  | b :: rest =>
      if le a b then a :: b :: rest else b :: insertBy le a rest

/-- Stable insertion sort with a boolean order. -/
def sortBy {α : Type} (le : α → α → Bool) : List α → List α
  | [] => []
  | a :: rest => insertBy le a (sortBy le rest)

/-- Modelled from the spec: round-robin selection across the buckets,
taking one head from each non-exhausted bucket per round, until `n`
articles are selected or all buckets are exhausted (§4.4).  `fuel`
makes the recursion structural; since each round removes at least one
element, `fuel = n` is always enough.  The backend source file is
missing from the tree. -/
def roundRobinGo {α : Type} : Nat → Nat → List (List α) → List α
  | 0, _, _ => []
  | fuel + 1, n, buckets =>
      if n = 0 then []
      else if (buckets.filterMap List.head?).length = 0 then []
      else if n ≤ (buckets.filterMap List.head?).length then
        (buckets.filterMap List.head?).take n
      else
        (buckets.filterMap List.head?)
          ++ roundRobinGo fuel
              (n - (buckets.filterMap List.head?).length)
              (buckets.map List.tail)

/-- Round-robin entry point with sufficient fuel. -/
def roundRobin {α : Type} (n : Nat) (buckets : List (List α)) :
    List α :=
  roundRobinGo n n buckets

/-- Modelled from the spec: the calendar day of an article, derived
from its publish timestamp (§4.4 buckets articles by day). -/
def dayOf (a : Article) : Nat := a.publishedAt / 86400

/-- Modelled from the spec: one day's bucket — that day's pool
articles sorted by score descending (§4.4). -/
def dayBucket (score : Article → Nat) (pool : List Article)
    (d : Nat) : List Article :=
  sortBy (fun a b => Nat.ble (score b) (score a))
    (pool.filter (fun a => dayOf a == d))

/-- Modelled from the spec: the Sampler for a ranged query — bucket by
day, round-robin to `n`, re-sort by `publishedAt` descending (§4.4).
The backend source file is missing from the tree. -/
def sampleRanged (score : Article → Nat) (days : List Nat)
    (pool : List Article) (n : Nat) : List Article :=
  sortBy (fun a b => Nat.ble b.publishedAt a.publishedAt)
    (roundRobin n (days.map (dayBucket score pool)))

/-- Insertion keeps the elements: the result is a permutation. -/
theorem insertBy_perm {α : Type} (le : α → α → Bool) (a : α) :
    ∀ l, (insertBy le a l).Perm (a :: l) := by
  intro l
  induction l with
  | nil => exact List.Perm.refl _
  | cons b rest ih =>
      rw [insertBy]
      split
      · exact List.Perm.refl _
      · exact (List.Perm.cons b ih).trans (List.Perm.swap a b rest)

/-- Sorting keeps the elements: the result is a permutation. -/
theorem sortBy_perm {α : Type} (le : α → α → Bool) :
    ∀ l, (sortBy le l).Perm l := by
  intro l
  induction l with
  | nil => exact List.Perm.refl _
  | cons a rest ih =>
      rw [sortBy]
      exact (insertBy_perm le a (sortBy le rest)).trans
        (List.Perm.cons a ih)

/-- One round-robin round splits the total bucket mass into the heads
taken and the tails kept. -/
theorem bucket_sum_split {α : Type} (buckets : List (List α)) :
    (buckets.map List.length).sum
      = (buckets.filterMap List.head?).length
        + ((buckets.map List.tail).map List.length).sum := by
  induction buckets with
  | nil => rfl
  | cons b rest ih =>
      cases b with
      | nil =>
          simp only [List.map_cons, List.sum_cons, List.filterMap_cons,
            List.head?_nil, List.length_nil, List.tail_nil]
          omega
      | cons x xs =>
          simp only [List.map_cons, List.sum_cons, List.filterMap_cons,
            List.head?_cons, List.length_cons, List.tail_cons]
          omega

/-- If no bucket has a head, every bucket is empty. -/
theorem no_heads_sum_zero {α : Type} (buckets : List (List α))
    (h : (buckets.filterMap List.head?).length = 0) :
    (buckets.map List.length).sum = 0 := by
  induction buckets with
  | nil => rfl
  | cons b rest ih =>
      cases b with
      | nil =>
          simp only [List.filterMap_cons, List.head?_nil] at h
          simp only [List.map_cons, List.sum_cons, List.length_nil,
            ih h]
      | cons x xs =>
          simp only [List.filterMap_cons, List.head?_cons,
            List.length_cons] at h
          omega

/-- When every bucket is non-empty, each contributes one head. -/
theorem heads_length_of_nonempty {α : Type}
    (buckets : List (List α)) (h : ∀ b ∈ buckets, b ≠ []) :
    (buckets.filterMap List.head?).length = buckets.length := by
  induction buckets with
  | nil => rfl
  | cons b rest ih =>
      cases b with
      | nil => exact absurd rfl (h [] (List.mem_cons_self [] rest))
      | cons x xs =>
          simp only [List.filterMap_cons, List.head?_cons,
            List.length_cons]
          rw [ih (fun c hc => h c (List.mem_cons_of_mem _ hc))]

/-- Round-robin selects exactly `min n (total pool mass)` articles. -/
theorem roundRobinGo_length {α : Type} :
    ∀ fuel n (buckets : List (List α)), n ≤ fuel →
      (roundRobinGo fuel n buckets).length
        = min n ((buckets.map List.length).sum) := by
  intro fuel
  induction fuel with
  | zero =>
      intro n buckets hn
      have h0 : n = 0 := by omega
      simp [roundRobinGo, h0]
  | succ f ih =>
      intro n buckets hn
      rw [roundRobinGo]
      by_cases h0 : n = 0
      · simp [h0]
      · rw [if_neg h0]
        by_cases hK : (buckets.filterMap List.head?).length = 0
        · rw [if_pos hK]
          rw [no_heads_sum_zero buckets hK]
          simp
        · rw [if_neg hK]
          have hsplit := bucket_sum_split buckets
          by_cases hle : n ≤ (buckets.filterMap List.head?).length
          · rw [if_pos hle]
            rw [List.length_take]
            omega
          · rw [if_neg hle]
            rw [List.length_append,
              ih (n - (buckets.filterMap List.head?).length)
                (buckets.map List.tail) (by omega)]
            omega

/-- Among the heads taken in one round, at most as many satisfy `p` as
there are buckets holding any `p`-element. -/
theorem heads_countP_le {α : Type} (p : α → Bool)
    (buckets : List (List α)) :
    (buckets.filterMap List.head?).countP p
      ≤ buckets.countP (fun b => b.any p) := by
  induction buckets with
  | nil => simp
  | cons b rest ih =>
      cases b with
      | nil =>
          simp only [List.filterMap_cons, List.head?_nil,
            List.countP_cons, List.any_nil]
          omega
      | cons x xs =>
          simp only [List.filterMap_cons, List.head?_cons,
            List.countP_cons, List.any_cons]
          by_cases hx : p x = true
          · simp only [hx, Bool.true_or, if_true]
            omega
          · have hx0 : p x = false := Bool.eq_false_iff.2 hx
            by_cases hxs : xs.any p = true
            · simp [hx0, hxs]
              omega
            · have hxs0 : xs.any p = false := Bool.eq_false_iff.2 hxs
              simp [hx0, hxs0]
              omega

/-- Taking tails cannot create a bucket holding a `p`-element. -/
theorem tails_any_le {α : Type} (p : α → Bool)
    (buckets : List (List α)) :
    (buckets.map List.tail).countP (fun b => b.any p)
      ≤ buckets.countP (fun b => b.any p) := by
  rw [List.countP_map]
  apply List.countP_mono_left
  intro b _ hb
  simp only [Function.comp] at hb
  cases b with
  | nil => simp at hb
  | cons x xs =>
      simp only [List.tail_cons] at hb
      simp only [List.any_cons, hb, Bool.or_true]

/-- Round-robin fairness: when at most one bucket holds `p`-elements,
every bucket has at least `k` elements, and `n ≤ k · #buckets`, the
selection contains at most `k` `p`-elements — one per round. -/
theorem roundRobinGo_fair {α : Type} (p : α → Bool) :
    ∀ fuel n (buckets : List (List α)) k,
      n ≤ k * buckets.length →
      (∀ b ∈ buckets, k ≤ b.length) →
      buckets.countP (fun b => b.any p) ≤ 1 →
      (roundRobinGo fuel n buckets).countP p ≤ k := by
  intro fuel
  induction fuel with
  | zero => intro n buckets k _ _ _; simp [roundRobinGo]
  | succ f ih =>
      intro n buckets k hnk hblen hone
      rw [roundRobinGo]
      by_cases h0 : n = 0
      · simp [h0]
      · rw [if_neg h0]
        by_cases hK : (buckets.filterMap List.head?).length = 0
        · rw [if_pos hK]
          simp
        · rw [if_neg hK]
          have hk1 : 1 ≤ k := by
            rcases Nat.eq_zero_or_pos k with hk0 | hk
            · subst hk0
              simp only [Nat.zero_mul, Nat.le_zero] at hnk
              exact absurd hnk h0
            · exact hk
          have hheads := heads_countP_le p buckets
          by_cases hle : n ≤ (buckets.filterMap List.head?).length
          · rw [if_pos hle]
            have h1 := (List.take_sublist n
              (buckets.filterMap List.head?)).countP_le p
            omega
          · rw [if_neg hle]
            rw [List.countP_append]
            have hne : ∀ b ∈ buckets, b ≠ [] := by
              intro b hb hnil
              have := hblen b hb
              rw [hnil] at this
              simp only [List.length_nil, Nat.le_zero] at this
              omega
            have hD := heads_length_of_nonempty buckets hne
            have hmul : k * buckets.length
                = (k - 1) * buckets.length + buckets.length := by
              have hk : k = (k - 1) + 1 := by omega
              calc k * buckets.length
                  = ((k - 1) + 1) * buckets.length := by rw [← hk]
                _ = (k - 1) * buckets.length + buckets.length := by
                    rw [Nat.succ_mul]
            have hrec := ih (n - (buckets.filterMap List.head?).length)
              (buckets.map List.tail) (k - 1)
              (by rw [List.length_map]; omega)
              (by
                intro b hb
                obtain ⟨c, hc, rfl⟩ := List.mem_map.1 hb
                have := hblen c hc
                rw [List.length_tail]
                omega)
              (Nat.le_trans (tails_any_le p buckets) hone)
            omega

/-- Every count that `n` needs is covered by `ceil (n / D)` rounds of
`D` buckets. -/
theorem le_ceil_mul (n D : Nat) (hD : 1 ≤ D) :
    n ≤ (n + D - 1) / D * D := by
  have hd := Nat.div_add_mod (n + D - 1) D
  have hm : (n + D - 1) % D < D := Nat.mod_lt _ (by omega)
  rw [Nat.mul_comm]
  generalize D * ((n + D - 1) / D) = q at hd ⊢
  omega

/-- Sum of a pointwise sum of maps. -/
theorem sum_map_add {β : Type} (l : List β) (f g : β → Nat) :
    (l.map (fun x => f x + g x)).sum
      = (l.map f).sum + (l.map g).sum := by
  induction l with
  | nil => rfl
  | cons x rest ih =>
      simp only [List.map_cons, List.sum_cons, ih]
      omega

/-- Over a duplicate-free day list containing `v`, the indicator of
`v` sums to exactly 1. -/
theorem sum_indicator_one (days : List Nat) (v : Nat)
    (hnodup : days.Nodup) (hv : v ∈ days) :
    (days.map (fun d => if v == d then 1 else 0)).sum = 1 := by
  induction days with
  | nil => cases hv
  | cons d rest ih =>
      simp only [List.map_cons, List.sum_cons]
      rcases List.mem_cons.1 hv with h | h
      · subst h
        simp only [beq_self_eq_true, if_true]
        have hz : (rest.map (fun d' => if v == d' then 1 else 0)).sum
            = 0 := by
          apply List.sum_eq_zero
          intro x hx
          obtain ⟨d', hd', rfl⟩ := List.mem_map.1 hx
          have hvne : v ≠ d' := by
            intro hc
            subst hc
            exact (List.nodup_cons.1 hnodup).1 hd'
          simp [hvne]
        omega
      · have hdne : (v == d) = false := by
          have : v ≠ d := by
            intro hc
            subst hc
            exact (List.nodup_cons.1 hnodup).1 h
          simp [this]
        rw [hdne]
        simp only [Bool.false_eq_true, if_false]
        rw [ih (List.nodup_cons.1 hnodup).2 h]

/-- With no duplicate days covering the whole pool, the day filters
partition the pool. -/
theorem sum_day_filters (days : List Nat) (pool : List Article)
    (hnodup : days.Nodup) (hcover : ∀ a ∈ pool, dayOf a ∈ days) :
    (days.map
        (fun d => (pool.filter (fun a => dayOf a == d)).length)).sum
      = pool.length := by
  induction pool with
  | nil => simp
  | cons a rest ih =>
      have hsplit : ∀ d : Nat,
          ((a :: rest).filter (fun x => dayOf x == d)).length
            = (if dayOf a == d then 1 else 0)
              + (rest.filter (fun x => dayOf x == d)).length := by
        intro d
        rw [List.filter_cons]
        by_cases hd : (dayOf a == d) = true
        · rw [if_pos hd, if_pos hd, List.length_cons]
          omega
        · rw [if_neg hd, if_neg hd]
          omega
      have hmap : days.map
            (fun d => ((a :: rest).filter
              (fun x => dayOf x == d)).length)
          = days.map (fun d => (if dayOf a == d then 1 else 0)
              + (rest.filter (fun x => dayOf x == d)).length) := by
        apply List.map_congr_left
        intro d _
        exact hsplit d
      rw [hmap, sum_map_add,
        sum_indicator_one days (dayOf a) hnodup
          (hcover a (List.mem_cons_self a rest)),
        ih (fun x hx => hcover x (List.mem_cons_of_mem a hx))]
      simp only [List.length_cons]
      omega

/-- Claim C6 (amended): for every ranged query (a non-empty
duplicate-free day list covering the pool), the sampler always selects
exactly `min n (pool size)` articles — under-supplied pools included;
and whenever every day of the range additionally holds at least
`ceil (n / D)` pool articles, no single day contributes more than
`ceil (n / D)` of the final selection (zero slack), even when that
day's articles score highest.  Without that proviso the cap fails
(see the counterexample). -/
theorem sampler_size_and_fairness (score : Article → Nat)
    (days : List Nat) (pool : List Article) (n d : Nat)
    (hnodup : days.Nodup)
    (hcover : ∀ a ∈ pool, dayOf a ∈ days)
    (hdays : 1 ≤ days.length) :
    (sampleRanged score days pool n).length = min n pool.length
      ∧ ((∀ d' ∈ days, (n + days.length - 1) / days.length
            ≤ (pool.filter (fun a => dayOf a == d')).length)
          → (sampleRanged score days pool n).countP
                (fun a => dayOf a == d)
              ≤ (n + days.length - 1) / days.length) := by
  have hbucketlen : ∀ d' : Nat,
      (dayBucket score pool d').length
        = (pool.filter (fun a => dayOf a == d')).length := by
    intro d'
    exact (sortBy_perm _ _).length_eq
  constructor
  · rw [sampleRanged, (sortBy_perm _ _).length_eq, roundRobin,
      roundRobinGo_length n n _ (Nat.le_refl n)]
    have hS : (((days.map (dayBucket score pool)).map
          List.length)).sum = pool.length := by
      rw [List.map_map]
      have hfun : (List.length ∘ dayBucket score pool)
          = fun d' => (pool.filter (fun a => dayOf a == d')).length :=
        funext fun d' => hbucketlen d'
      rw [hfun, sum_day_filters days pool hnodup hcover]
    rw [hS]
  · intro hmin
    rw [sampleRanged,
      List.Perm.countP_eq _ (sortBy_perm _ _), roundRobin]
    apply roundRobinGo_fair
    · rw [List.length_map]
      exact le_ceil_mul n days.length hdays
    · intro b hb
      obtain ⟨d', hd', rfl⟩ := List.mem_map.1 hb
      rw [hbucketlen d']
      exact hmin d' hd'
    · rw [List.countP_map]
      have hmono : List.countP
            ((fun b => b.any (fun a => dayOf a == d))
              ∘ dayBucket score pool) days
          ≤ List.countP (fun d' => d' == d) days := by
        apply List.countP_mono_left
        intro d' _ hany
        simp only [Function.comp, List.any_eq_true] at hany
        obtain ⟨a, ha, had⟩ := hany
        have h1 : a ∈ pool.filter (fun x => dayOf x == d') :=
          ((sortBy_perm _ _).mem_iff).1 ha
        have h2 := (List.mem_filter.1 h1).2
        simp only [beq_iff_eq] at h2 had ⊢
        omega
      have hcount : List.countP (fun d' => d' == d) days ≤ 1 := by
        rw [← List.count_eq_countP]
        exact List.nodup_iff_count_le_one.1 hnodup d
      omega

/-- A maximally skewed pool: ten articles, all published on day 0. -/
def cexPool : List Article :=
  [⟨['a'], [], [], [], 0, [], none⟩,
    ⟨['b'], [], [], [], 1, [], none⟩,
    ⟨['c'], [], [], [], 2, [], none⟩,
    ⟨['d'], [], [], [], 3, [], none⟩,
    ⟨['e'], [], [], [], 4, [], none⟩,
    ⟨['f'], [], [], [], 5, [], none⟩,
    ⟨['g'], [], [], [], 6, [], none⟩,
    ⟨['h'], [], [], [], 7, [], none⟩,
    ⟨['i'], [], [], [], 8, [], none⟩,
    ⟨['j'], [], [], [], 9, [], none⟩]

/-- Counterexample to C6 as stated: over the 5-day range 0..4 with a
pool lying entirely on day 0, the sampler still selects
min(10, 10) = 10 articles and day 0 contributes all 10 — while
ceil(10/5) = 2, so the per-day cap `ceil(N/D) + slack` is exceeded for
every slack below 8.  The spec's round-robin algorithm keeps drawing
from the only non-exhausted bucket, so no fixed slack can bound a
day's contribution when other days run dry. -/
theorem sampler_day_cap_counterexample :
    (sampleRanged (fun _ => 0) [0, 1, 2, 3, 4] cexPool 10).length = 10
      ∧ (sampleRanged (fun _ => 0) [0, 1, 2, 3, 4] cexPool 10).countP
            (fun a => dayOf a == 0) = 10
      ∧ (10 + 5 - 1) / 5 = 2 := by decide

/-- A balanced pool: two articles on day 0, two on day 1. -/
def balPool : List Article :=
  [⟨['a'], [], [], [], 0, [], none⟩,
    ⟨['b'], [], [], [], 1, [], none⟩,
    ⟨['c'], [], [], [], 86400, [], none⟩,
    ⟨['d'], [], [], [], 86401, [], none⟩]

/-- Witness for the amended C6: on the 2-day range 0..1 with two
articles on each day and target 4, the sampler returns min(4, 4) = 4
articles of which day 0 contributes at most ceil(4/2) = 2; and on the
under-supplied skewed pool the unconditional size conjunct still
gives min(10, 10) = 10. -/
theorem sampler_size_and_fairness_witness :
    (sampleRanged (fun _ => 0) [0, 1] balPool 4).length
        = min 4 balPool.length
      ∧ (sampleRanged (fun _ => 0) [0, 1] balPool 4).countP
            (fun a => dayOf a == 0)
          ≤ (4 + 2 - 1) / 2
      ∧ (sampleRanged (fun _ => 0) [0, 1, 2, 3, 4] cexPool 10).length
          = min 10 cexPool.length :=
  ⟨(sampler_size_and_fairness (fun _ => 0) [0, 1] balPool 4 0
      (by decide) (by decide) (by decide)).1,
    (sampler_size_and_fairness (fun _ => 0) [0, 1] balPool 4 0
      (by decide) (by decide) (by decide)).2 (by decide),
    (sampler_size_and_fairness (fun _ => 0) [0, 1, 2, 3, 4] cexPool 10
      0 (by decide) (by decide) (by decide)).1⟩

end News
